import Mathlib

/-!
# Verification of the thunder_rust beam/chokudai search engines

Shallow embedding of `src/chapter3/BeamSearchWithTime05.rs` and
`src/chapter3/ChokudaiSearchWithTime07.rs`.  The two Rust files contain an
identical copy of the `MazeState` game model; it is embedded once below.

Modelling decisions:
* Machine integers: Rust `i32` fields become `Int`; `usize` fields become
  `Nat`.  The Rust cast `as usize` (sign-extend an `i32`, then reinterpret as
  a 64-bit unsigned value) is `usizeCast`, reduction modulo 2^64.
* The `points` grid becomes a total function `Nat → Nat → Int`; the claims
  about in-bounds indexing are proved separately.
* The wall clock (`TimeKeeper.is_time_over`) is injected as an oracle
  `Nat → Bool`; the engine consults it at the sequential indices 0, 1, 2, …,
  exactly at the program points where the Rust code calls `is_time_over`.
* The outer `loop`s of both engines can diverge, so they take a fuel
  argument counting rounds; `RunRes.fuelOut` means the fuel ran out,
  `RunRes.panicked` models a Rust panic (`unwrap` on `None` or indexing an
  empty `Vec`), and `RunRes.ret a` is a normal return of the action `a`.
* Rust's `BinaryHeap` pops states in descending `evaluated_score` order with
  an unspecified tie order; it is modelled as a list kept sorted by
  descending `evaluated_score` with one fixed (FIFO) tie-break, `hpush`.
-/

namespace ThunderRust

set_option maxRecDepth 100000

/-- Maze height, source constant `H` (line 43). -/
def H : Nat := 30

/-- Maze width, source constant `W` (line 44). -/
def W : Nat := 30

/-- Final turn, source constant `END_TURN` (line 46). -/
def END_TURN : Nat := 100

/-- Rust `as usize` on an `i32` value: sign-extend and reinterpret, i.e.
reduce modulo 2^64 (the literal is 2^64). -/
def usizeCast (i : Int) : Nat := (i % 18446744073709551616).toNat

/-- Source struct `Coord` (lines 30-34): a position held as two `i32`. -/
structure Coord where
  y : Int
  x : Int

/-- Source struct `MazeState` (lines 52-60). -/
structure MazeState where
  character : Coord
  points : Nat → Nat → Int
  turn : Nat
  game_score : Int
  evaluated_score : Int
  first_action : Int

/-- The `dy` table of `advance`/`legal_actions` (lines 107, 124). -/
def dyv : Nat → Int
  | 0 => 0
  | 1 => 0
  | 2 => 1
  | _ => -1

/-- The `dx` table of `advance`/`legal_actions` (lines 108, 125). -/
def dxv : Nat → Int
  | 0 => 1
  | 1 => -1
  | 2 => 0
  | _ => 0

/-- Source `MazeState::is_done` (lines 98-100): `turn == END_TURN`. -/
def MazeState.is_done (s : MazeState) : Bool := s.turn == END_TURN

/-- Source `MazeState::evaluate_score` (lines 102-104). -/
def MazeState.evaluate_score (s : MazeState) : MazeState :=
  { s with evaluated_score := s.game_score }

/-- Source `#[derive(Clone)]` on `MazeState`: a field-wise deep copy
(arrays in Rust are copied by value). -/
def MazeState.clone (s : MazeState) : MazeState :=
  { character := ⟨s.character.y, s.character.x⟩
    points := fun y x => s.points y x
    turn := s.turn
    game_score := s.game_score
    evaluated_score := s.evaluated_score
    first_action := s.first_action }

/-- Source `MazeState::advance` (lines 106-120): move the character, collect
the point on the entered cell (zeroing it if positive), bump the turn. -/
def MazeState.advance (s : MazeState) (action : Nat) : MazeState :=
  let nx : Int := s.character.x + dxv action
  let ny : Int := s.character.y + dyv action
  let iy : Nat := usizeCast ny
  let ix : Nat := usizeCast nx
  let p : Int := s.points iy ix
  { s with
    character := ⟨ny, nx⟩
    points :=
      if 0 < p then (fun y x => if y = iy ∧ x = ix then 0 else s.points y x)
      else s.points
    game_score := if 0 < p then s.game_score + p else s.game_score
    turn := s.turn + 1 }

/-- Source `MazeState::legal_actions` (lines 122-136): the actions in
`0..4` whose target coordinates, cast with `as usize`, stay below `H`/`W`. -/
def MazeState.legal_actions (s : MazeState) : List Nat :=
  (List.range 4).filter (fun a =>
    decide (usizeCast (s.character.y + dyv a) < H) &&
    decide (usizeCast (s.character.x + dxv a) < W))

/-- The character coordinates are inside the H-by-W grid. -/
def inGrid (s : MazeState) : Prop :=
  0 ≤ s.character.y ∧ s.character.y < (H : Int) ∧
  0 ≤ s.character.x ∧ s.character.x < (W : Int)

instance (s : MazeState) : Decidable (inGrid s) := by
  unfold inGrid; infer_instance

/-- `BinaryHeap::push`, modelled on a list sorted by descending
`evaluated_score` (source `Ord` impl, lines 160-164); equal scores keep FIFO
order, one admissible refinement of the unspecified heap tie order. -/
def hpush (s : MazeState) : List MazeState → List MazeState
  | [] => [s]
  | x :: xs =>
      if s.evaluated_score ≤ x.evaluated_score then x :: hpush s xs
      else s :: x :: xs

/-- Push a batch of states (the `for &action in &legal_actions` push loop). -/
def hpushAll (children : List MazeState) (h : List MazeState) : List MazeState :=
  children.foldl (fun acc c => hpush c acc) h

/-- The shared expansion step of both engines (Beam lines 210-219, Chokudai
lines 207-217): clone the popped state, advance, evaluate, and stamp
`first_action` only when `t == 0`. -/
def expandChild (t : Nat) (p : MazeState) (a : Nat) : MazeState :=
  let ns := ((p.clone).advance a).evaluate_score
  if t = 0 then { ns with first_action := Int.ofNat a } else ns

/-- The possible outcomes of one fueled engine run. -/
inductive RunRes where
  | fuelOut
  | panicked
  | ret (a : Nat)
deriving DecidableEq

/-- The timeout fallback of beam search (lines 196-200): `best.first_action`
if it was ever set, else `root.legal_actions()[0]` (which panics on an empty
list, as Rust indexing does). -/
def beamFallback (root best : MazeState) : RunRes :=
  if best.first_action = -1 then
    match root.legal_actions with
    | [] => RunRes.panicked
    | a :: _ => RunRes.ret a
  else RunRes.ret (usizeCast best.first_action)

/-- The inner `for _ in 0..beam_width` pop loop of beam search
(lines 194-220).  `i` counts the remaining iterations, `c` the index of the
next clock consultation.  Returns either an early `return` value (`Sum.inl`)
or the final `(now_beam, next_beam, c)` (`Sum.inr`). -/
def beamPops (oracle : Nat → Bool) (root best : MazeState) (t : Nat) :
    Nat → List MazeState → List MazeState → Nat →
      Sum RunRes (List MazeState × List MazeState × Nat)
  | 0, nowB, nextB, c => Sum.inr (nowB, nextB, c)
  | i + 1, nowB, nextB, c =>
      if oracle c then Sum.inl (beamFallback root best)
      else
        match nowB with
        | [] => Sum.inr ([], nextB, c + 1)
        | s :: rest =>
            beamPops oracle root best t i rest
              (hpushAll ((s.legal_actions).map (expandChild t s)) nextB) (c + 1)

/-- The outer `loop` of beam search (lines 190-229): run the pop loop, then
`now_beam = next_beam; best = now_beam.peek().unwrap()` (a panic when the
new frontier is empty), `t += 1`, and exit returning
`best.first_action as usize` once `best.is_done()`. -/
def beamLoop (oracle : Nat → Bool) (root : MazeState) (w : Nat) :
    Nat → List MazeState → MazeState → Nat → Nat → RunRes
  | 0, _, _, _, _ => RunRes.fuelOut
  | fuel + 1, nowB, best, t, c =>
      match beamPops oracle root best t w nowB [] c with
      | Sum.inl r => r
      | Sum.inr (_, nextB, c') =>
          match nextB with
          | [] => RunRes.panicked
          | b :: _ =>
              if b.turn = END_TURN then RunRes.ret (usizeCast b.first_action)
              else beamLoop oracle root w fuel nextB b (t + 1) c'

/-- Source `beam_search_action_with_time_threshold` (lines 181-232), with
the wall clock injected as `oracle` and the outer loop fueled by rounds. -/
def beam_search_action_with_time_threshold (root : MazeState) (w : Nat)
    (oracle : Nat → Bool) (fuel : Nat) : RunRes :=
  beamLoop oracle root w fuel [root.clone] root.clone 0 0

/-- The inner `for _ in 0..beam_width` pop loop of chokudai search
(lines 195-218): break on an empty frontier or a terminal top state;
otherwise pop and push all expansions into the next frontier.  No clock. -/
def chokPops (t : Nat) : Nat → List MazeState → List MazeState →
    List MazeState × List MazeState
  | 0, nowB, nextB => (nowB, nextB)
  | _ + 1, [], nextB => ([], nextB)
  | i + 1, s :: rest, nextB =>
      if (s.clone).is_done then (s :: rest, nextB)
      else
        chokPops t i rest
          (hpushAll ((s.legal_actions).map (expandChild t s)) nextB)

/-- One depth step of a chokudai round (lines 192-221): clone frontiers `t`
and `t+1`, run the pop loop, write both back. -/
def chokDepth (w : Nat) (beams : Nat → List MazeState) (t : Nat) :
    Nat → List MazeState :=
  let r := chokPops t w (beams t) (beams (t + 1))
  fun u => if u = t then r.1 else if u = t + 1 then r.2 else beams u

/-- One whole round of chokudai search (`for t in 0..beam_depth`,
line 191).  Note: no clock consultation anywhere inside. -/
def chokRound (w d : Nat) (beams : Nat → List MazeState) :
    Nat → List MazeState :=
  (List.range d).foldl (chokDepth w) beams

/-- The final scan (lines 228-235): walk the frontiers from index `k` down
to 0 and return the top state's `first_action as usize` at the first
non-empty one; return 0 if all are empty (line 235). -/
def chokScan (beams : Nat → List MazeState) : Nat → RunRes
  | 0 =>
      match beams 0 with
      | b :: _ => RunRes.ret (usizeCast b.first_action)
      | [] => RunRes.ret 0
  | k + 1 =>
      match beams (k + 1) with
      | b :: _ => RunRes.ret (usizeCast b.first_action)
      | [] => chokScan beams k

/-- The initial frontiers (lines 184-188): `beam_depth + 1` empty heaps,
frontier 0 seeded with a clone of the root. -/
def chokInit (root : MazeState) : Nat → List MazeState :=
  fun u => if u = 0 then [root.clone] else []

/-- The outer `loop` of chokudai search (lines 190-226): run a whole round,
then consult the clock once; on expiry run the final scan. -/
def chokLoop (w d : Nat) (oracle : Nat → Bool) :
    Nat → (Nat → List MazeState) → Nat → RunRes
  | 0, _, _ => RunRes.fuelOut
  | fuel + 1, beams, c =>
      let beams' := chokRound w d beams
      if oracle c then chokScan beams' d
      else chokLoop w d oracle fuel beams' (c + 1)

/-- Source `chokudai_search_action_wirh_time_threshold` (lines 181-236),
with the wall clock injected as `oracle` and the outer loop fueled. -/
def chokudai_search_action_wirh_time_threshold (root : MazeState)
    (w d : Nat) (oracle : Nat → Bool) (fuel : Nat) : RunRes :=
  chokLoop w d oracle fuel (chokInit root) 0

/-- A concrete state used to instantiate theorems: character at the origin,
all-zero points, fresh counters, unset `first_action`. -/
def root0 : MazeState :=
  { character := ⟨0, 0⟩
    points := fun _ _ => 0
    turn := 0
    game_score := 0
    evaluated_score := 0
    first_action := -1 }

/-- `root0` at the final turn: a terminal root state. -/
def rootDone : MazeState := { root0 with turn := END_TURN }

/-- A state whose `first_action` is the stamp of some legal action of
`root`: the shape of every frontier state below depth 0. -/
def StampedLegal (root s : MazeState) : Prop :=
  ∃ a ∈ root.legal_actions, s.first_action = Int.ofNat a

theorem usizeCast_lt_thirty (v : Int) (h1 : -40 ≤ v) (h2 : v ≤ 60) :
    usizeCast v < 30 ↔ 0 ≤ v ∧ v < 30 := by
  unfold usizeCast; omega

theorem usizeCast_ofNat (a : Nat) (h : a < 1000) :
    usizeCast (Int.ofNat a) = a := by
  show ((a : Int) % 18446744073709551616).toNat = a
  rw [Int.emod_eq_of_lt (by omega) (by omega)]
  omega

theorem inGrid_iff (s : MazeState) :
    inGrid s ↔ 0 ≤ s.character.y ∧ s.character.y < 30 ∧
      0 ≤ s.character.x ∧ s.character.x < 30 := by
  unfold inGrid
  norm_num [H, W]

theorem dyv_small (a : Nat) : -1 ≤ dyv a ∧ dyv a ≤ 1 := by
  unfold dyv; split <;> omega

theorem dxv_small (a : Nat) : -1 ≤ dxv a ∧ dxv a ≤ 1 := by
  unfold dxv; split <;> omega

theorem mem_legal_actions (s : MazeState) (a : Nat) :
    a ∈ s.legal_actions ↔
      a < 4 ∧ usizeCast (s.character.y + dyv a) < H ∧
        usizeCast (s.character.x + dxv a) < W := by
  simp [MazeState.legal_actions, List.mem_filter, List.mem_range, and_assoc]

theorem mem_legal_char (s : MazeState) (hg : inGrid s) (a : Nat) :
    a ∈ s.legal_actions ↔
      a < 4 ∧ 0 ≤ s.character.y + dyv a ∧ s.character.y + dyv a < 30 ∧
        0 ≤ s.character.x + dxv a ∧ s.character.x + dxv a < 30 := by
  obtain ⟨hy0, hy1, hx0, hx1⟩ := (inGrid_iff s).1 hg
  have hdy := dyv_small a
  have hdx := dxv_small a
  rw [mem_legal_actions]
  rw [show (H : Nat) = 30 from rfl, show (W : Nat) = 30 from rfl]
  rw [usizeCast_lt_thirty _ (by omega) (by omega),
    usizeCast_lt_thirty _ (by omega) (by omega)]
  constructor
  · rintro ⟨h1, h2, h3⟩; exact ⟨h1, h2.1, h2.2, h3.1, h3.2⟩
  · rintro ⟨h1, h2, h3, h4, h5⟩; exact ⟨h1, ⟨h2, h3⟩, ⟨h4, h5⟩⟩

theorem legal_actions_ne_nil (s : MazeState) (hg : inGrid s) :
    s.legal_actions ≠ [] := by
  obtain ⟨hy0, hy1, hx0, hx1⟩ := (inGrid_iff s).1 hg
  by_cases hx : s.character.x + 1 < 30
  · refine List.ne_nil_of_mem (a := 0) ?_
    rw [mem_legal_char s hg 0]
    refine ⟨by omega, ?_⟩
    simp only [dyv, dxv]
    omega
  · refine List.ne_nil_of_mem (a := 1) ?_
    rw [mem_legal_char s hg 1]
    refine ⟨by omega, ?_⟩
    simp only [dyv, dxv]
    omega

theorem clone_eq (s : MazeState) : s.clone = s := rfl

theorem advance_character (s : MazeState) (a : Nat) :
    (s.advance a).character =
      ⟨s.character.y + dyv a, s.character.x + dxv a⟩ := rfl

theorem advance_turn (s : MazeState) (a : Nat) :
    (s.advance a).turn = s.turn + 1 := rfl

theorem advance_first_action (s : MazeState) (a : Nat) :
    (s.advance a).first_action = s.first_action := rfl

theorem evaluate_score_first_action (s : MazeState) :
    (s.evaluate_score).first_action = s.first_action := rfl

theorem advance_inGrid (s : MazeState) (a : Nat) (hg : inGrid s)
    (ha : a ∈ s.legal_actions) : inGrid (s.advance a) := by
  have h := (mem_legal_char s hg a).1 ha
  rw [inGrid_iff, advance_character]
  exact ⟨h.2.1, h.2.2.1, h.2.2.2.1, h.2.2.2.2⟩

theorem expandChild_first_action_zero (p : MazeState) (a : Nat) :
    (expandChild 0 p a).first_action = Int.ofNat a := rfl

theorem expandChild_first_action_pos (t : Nat) (p : MazeState) (a : Nat)
    (ht : t ≠ 0) : (expandChild t p a).first_action = p.first_action := by
  unfold expandChild
  rw [if_neg ht]
  rfl

theorem expandChild_character (t : Nat) (p : MazeState) (a : Nat) :
    (expandChild t p a).character = (p.advance a).character := by
  unfold expandChild
  split <;> rfl

theorem expandChild_turn (t : Nat) (p : MazeState) (a : Nat) :
    (expandChild t p a).turn = p.turn + 1 := by
  unfold expandChild
  split <;> rfl

theorem expandChild_inGrid (t : Nat) (p : MazeState) (a : Nat)
    (hg : inGrid p) (ha : a ∈ p.legal_actions) :
    inGrid (expandChild t p a) := by
  have h := advance_inGrid p a hg ha
  unfold inGrid at h ⊢
  rw [expandChild_character]
  exact h

theorem mem_hpush {x s : MazeState} {h : List MazeState} :
    x ∈ hpush s h ↔ x = s ∨ x ∈ h := by
  induction h with
  | nil => simp [hpush]
  | cons y ys ih =>
      unfold hpush
      split
      · rw [List.mem_cons, List.mem_cons, ih]
        tauto
      · simp only [List.mem_cons]

theorem mem_hpushAll {x : MazeState} {cs h : List MazeState} :
    x ∈ hpushAll cs h ↔ x ∈ cs ∨ x ∈ h := by
  induction cs generalizing h with
  | nil => simp [hpushAll]
  | cons c cs ih =>
      unfold hpushAll at ih ⊢
      simp only [List.foldl_cons, ih, mem_hpush, List.mem_cons]
      tauto

theorem hpushAll_ne_nil {cs h : List MazeState}
    (hne : cs ≠ [] ∨ h ≠ []) : hpushAll cs h ≠ [] := by
  rcases hne with hc | hh
  · obtain ⟨x, hx⟩ := List.exists_mem_of_ne_nil cs hc
    exact List.ne_nil_of_mem (mem_hpushAll.2 (Or.inl hx))
  · obtain ⟨x, hx⟩ := List.exists_mem_of_ne_nil h hh
    exact List.ne_nil_of_mem (mem_hpushAll.2 (Or.inr hx))

theorem expandChild_stamped (t : Nat) (root p : MazeState) (a : Nat)
    (ha : a ∈ p.legal_actions)
    (hp : (t = 0 → p = root) ∧ (t ≠ 0 → StampedLegal root p)) :
    StampedLegal root (expandChild t p a) := by
  by_cases ht : t = 0
  · subst ht
    refine ⟨a, ?_, expandChild_first_action_zero p a⟩
    rw [← hp.1 rfl]
    exact ha
  · obtain ⟨b, hb, hfa⟩ := hp.2 ht
    exact ⟨b, hb, by rw [expandChild_first_action_pos t p a ht, hfa]⟩

theorem stamped_ret_legal (root best : MazeState)
    (h : StampedLegal root best) :
    ∃ a ∈ root.legal_actions,
      RunRes.ret (usizeCast best.first_action) = RunRes.ret a := by
  obtain ⟨a, ha, hfa⟩ := h
  have ha4 : a < 4 := ((mem_legal_actions root a).1 ha).1
  exact ⟨a, ha, by rw [hfa, usizeCast_ofNat a (by omega)]⟩

theorem beamFallback_legal (root best : MazeState) (hg : inGrid root)
    (hbest : best.first_action = -1 ∨ StampedLegal root best) :
    ∃ a ∈ root.legal_actions, beamFallback root best = RunRes.ret a := by
  unfold beamFallback
  rcases hbest with h | h
  · rw [if_pos h]
    cases hl : root.legal_actions with
    | nil => exact absurd hl (legal_actions_ne_nil root hg)
    | cons a as => exact ⟨a, List.mem_cons_self a as, rfl⟩
  · obtain ⟨a, ha, hfa⟩ := h
    rw [if_neg (by rw [hfa, Int.ofNat_eq_natCast]; omega)]
    exact stamped_ret_legal root best ⟨a, ha, hfa⟩

theorem beamPops_inl {oracle : Nat → Bool} {root best : MazeState}
    {t : Nat} :
    ∀ {i : Nat} {nowB nextB : List MazeState} {c : Nat} {r : RunRes},
      beamPops oracle root best t i nowB nextB c = Sum.inl r →
        r = beamFallback root best := by
  intro i
  induction i with
  | zero => intro _ _ _ _ h; exact absurd h (by simp [beamPops])
  | succ i ih =>
      intro nowB nextB c r h
      unfold beamPops at h
      by_cases hc : oracle c
      · rw [if_pos hc] at h
        exact (Sum.inl.inj h).symm
      · rw [if_neg hc] at h
        cases nowB with
        | nil => exact absurd h (by simp)
        | cons s rest => exact ih h

theorem beamPops_expired (oracle : Nat → Bool) (root best : MazeState)
    (t i : Nat) (nowB nextB : List MazeState) (c : Nat)
    (hi : 1 ≤ i) (hc : oracle c = true) :
    beamPops oracle root best t i nowB nextB c =
      Sum.inl (beamFallback root best) := by
  cases i with
  | zero => omega
  | succ i => unfold beamPops; rw [if_pos hc]

theorem beamPops_inr_facts {oracle : Nat → Bool} {root best : MazeState}
    {t : Nat} :
    ∀ {i : Nat} {nowB nextB : List MazeState} {c : Nat}
      {nowB' nextB' : List MazeState} {c' : Nat},
      beamPops oracle root best t i nowB nextB c =
          Sum.inr (nowB', nextB', c') →
        c ≤ c' ∧ (∀ j, c ≤ j → j < c' → oracle j = false) ∧
          (1 ≤ i → c + 1 ≤ c') := by
  intro i
  induction i with
  | zero =>
      intro nowB nextB c nowB' nextB' c' h
      simp only [beamPops, Sum.inr.injEq, Prod.mk.injEq] at h
      obtain ⟨-, -, rfl⟩ := h
      exact ⟨le_refl c, fun j h1 h2 => by omega, fun h => by omega⟩
  | succ i ih =>
      intro nowB nextB c nowB' nextB' c' h
      unfold beamPops at h
      by_cases hc : oracle c
      · rw [if_pos hc] at h; cases h
      · rw [if_neg hc] at h
        cases nowB with
        | nil =>
            simp only [Sum.inr.injEq, Prod.mk.injEq] at h
            obtain ⟨-, -, rfl⟩ := h
            refine ⟨by omega, fun j h1 h2 => ?_, fun _ => by omega⟩
            have : j = c := by omega
            subst this
            simpa using hc
        | cons s rest =>
            obtain ⟨h1, h2, -⟩ := ih h
            refine ⟨by omega, fun j hj1 hj2 => ?_, fun _ => by omega⟩
            by_cases hjc : j = c
            · subst hjc; simpa using hc
            · exact h2 j (by omega) hj2

theorem beamPops_inr_mem {oracle : Nat → Bool} {root best : MazeState}
    {t : Nat} :
    ∀ {i : Nat} {nowB nextB : List MazeState} {c : Nat}
      {nowB' nextB' : List MazeState} {c' : Nat},
      beamPops oracle root best t i nowB nextB c =
          Sum.inr (nowB', nextB', c') →
      (∀ p ∈ nowB, inGrid p ∧ (t = 0 → p = root) ∧
        (t ≠ 0 → StampedLegal root p)) →
      (∀ s ∈ nextB, inGrid s ∧ StampedLegal root s) →
      ∀ s ∈ nextB', inGrid s ∧ StampedLegal root s := by
  intro i
  induction i with
  | zero =>
      intro nowB nextB c nowB' nextB' c' h _ hnext
      simp only [beamPops, Sum.inr.injEq, Prod.mk.injEq] at h
      obtain ⟨-, rfl, -⟩ := h
      exact hnext
  | succ i ih =>
      intro nowB nextB c nowB' nextB' c' h hnow hnext
      unfold beamPops at h
      by_cases hc : oracle c
      · rw [if_pos hc] at h; cases h
      · rw [if_neg hc] at h
        cases nowB with
        | nil =>
            simp only [Sum.inr.injEq, Prod.mk.injEq] at h
            obtain ⟨-, rfl, -⟩ := h
            exact hnext
        | cons p rest =>
            refine ih h (fun q hq => hnow q (List.mem_cons_of_mem p hq)) ?_
            intro s hs
            rcases mem_hpushAll.1 hs with hsc | hso
            · obtain ⟨a, ha, rfl⟩ := List.mem_map.1 hsc
              have hp := hnow p (List.mem_cons_self p rest)
              exact ⟨expandChild_inGrid t p a hp.1 ha,
                expandChild_stamped t root p a ha hp.2⟩
            · exact hnext s hso

theorem beamPops_inr_grow {oracle : Nat → Bool} {root best : MazeState}
    {t : Nat} :
    ∀ {i : Nat} {nowB nextB : List MazeState} {c : Nat}
      {nowB' nextB' : List MazeState} {c' : Nat},
      beamPops oracle root best t i nowB nextB c =
          Sum.inr (nowB', nextB', c') →
        nextB ≠ [] → nextB' ≠ [] := by
  intro i
  induction i with
  | zero =>
      intro nowB nextB c nowB' nextB' c' h hne
      simp only [beamPops, Sum.inr.injEq, Prod.mk.injEq] at h
      obtain ⟨-, rfl, -⟩ := h
      exact hne
  | succ i ih =>
      intro nowB nextB c nowB' nextB' c' h hne
      unfold beamPops at h
      by_cases hc : oracle c
      · rw [if_pos hc] at h; cases h
      · rw [if_neg hc] at h
        cases nowB with
        | nil =>
            simp only [Sum.inr.injEq, Prod.mk.injEq] at h
            obtain ⟨-, rfl, -⟩ := h
            exact hne
        | cons p rest => exact ih h (hpushAll_ne_nil (Or.inr hne))

theorem beamPops_inr_ne_nil {oracle : Nat → Bool} {root best : MazeState}
    {t i : Nat} {nowB nextB : List MazeState} {c : Nat}
    {nowB' nextB' : List MazeState} {c' : Nat}
    (h : beamPops oracle root best t i nowB nextB c =
      Sum.inr (nowB', nextB', c'))
    (hi : 1 ≤ i) (hnow : nowB ≠ []) (hg : ∀ p ∈ nowB, inGrid p) :
    nextB' ≠ [] := by
  cases i with
  | zero => omega
  | succ i =>
      unfold beamPops at h
      by_cases hc : oracle c
      · rw [if_pos hc] at h; cases h
      · rw [if_neg hc] at h
        cases nowB with
        | nil => exact absurd rfl hnow
        | cons p rest =>
            refine beamPops_inr_grow h (hpushAll_ne_nil (Or.inl ?_))
            have := legal_actions_ne_nil p (hg p (List.mem_cons_self p rest))
            simpa using this

/-- The loop invariant of beam search: the frontier is non-empty, all its
states are in the grid, and below depth 0 every frontier state and the
current best state carry a stamped legal first action. -/
def BeamInv (root : MazeState) (t : Nat) (nowB : List MazeState)
    (best : MazeState) : Prop :=
  nowB ≠ [] ∧
  (∀ p ∈ nowB, inGrid p ∧ (t = 0 → p = root) ∧
    (t ≠ 0 → StampedLegal root p)) ∧
  (t = 0 → best = root) ∧ (t ≠ 0 → StampedLegal root best)

theorem beamLoop_legal (oracle : Nat → Bool) (root : MazeState) (w n : Nat)
    (hw : 1 ≤ w) (hg : inGrid root) (hfa : root.first_action = -1)
    (hn : oracle n = true) :
    ∀ fuel c nowB best t, c ≤ n → n + 1 ≤ fuel + c →
      BeamInv root t nowB best →
      ∃ a ∈ root.legal_actions,
        beamLoop oracle root w fuel nowB best t c = RunRes.ret a := by
  intro fuel
  induction fuel with
  | zero => intro c nowB best t hc hfc _; omega
  | succ fuel ih =>
      intro c nowB best t hc hfc hinv
      obtain ⟨hnow_ne, hnow, hb0, hb1⟩ := hinv
      have hbfb : ∃ a ∈ root.legal_actions,
          beamFallback root best = RunRes.ret a := by
        apply beamFallback_legal root best hg
        by_cases ht : t = 0
        · left; rw [hb0 ht]; exact hfa
        · right; exact hb1 ht
      simp only [beamLoop]
      cases hres : beamPops oracle root best t w nowB [] c with
      | inl r =>
          obtain ⟨a, ha, hf⟩ := hbfb
          refine ⟨a, ha, ?_⟩
          show r = RunRes.ret a
          rw [beamPops_inl hres]
          exact hf
      | inr out =>
          obtain ⟨nowB', nextB', c'⟩ := out
          obtain ⟨hcc', hfalse, hstep⟩ := beamPops_inr_facts hres
          have hc1 : c + 1 ≤ c' := hstep hw
          have hcn : c' ≤ n := by
            by_contra hgt
            have hnf := hfalse n hc (by omega)
            rw [hn] at hnf
            cases hnf
          have hnext_ne : nextB' ≠ [] :=
            beamPops_inr_ne_nil hres hw hnow_ne (fun p hp => (hnow p hp).1)
          have hmem : ∀ s ∈ nextB', inGrid s ∧ StampedLegal root s :=
            beamPops_inr_mem hres hnow
              (fun s hs => absurd hs (List.not_mem_nil s))
          obtain ⟨b, rest, rfl⟩ : ∃ b rest, nextB' = b :: rest := by
            cases nextB' with
            | nil => exact absurd rfl hnext_ne
            | cons b rest => exact ⟨b, rest, rfl⟩
          have hbmem := hmem b (List.mem_cons_self b rest)
          by_cases hdone : b.turn = END_TURN
          · obtain ⟨a, ha, heq⟩ := stamped_ret_legal root b hbmem.2
            refine ⟨a, ha, ?_⟩
            show (if b.turn = END_TURN then
              RunRes.ret (usizeCast b.first_action)
              else beamLoop oracle root w fuel (b :: rest) b (t + 1) c') =
                RunRes.ret a
            rw [if_pos hdone]
            exact heq
          · have hrec := ih c' (b :: rest) b (t + 1) hcn (by omega)
              ⟨List.cons_ne_nil b rest,
                fun p hp => ⟨(hmem p hp).1, fun h => absurd h (Nat.succ_ne_zero t),
                  fun _ => (hmem p hp).2⟩,
                fun h => absurd h (Nat.succ_ne_zero t),
                fun _ => hbmem.2⟩
            obtain ⟨a, ha, heq⟩ := hrec
            refine ⟨a, ha, ?_⟩
            show (if b.turn = END_TURN then
              RunRes.ret (usizeCast b.first_action)
              else beamLoop oracle root w fuel (b :: rest) b (t + 1) c') =
                RunRes.ret a
            rw [if_neg hdone]
            exact heq

theorem is_done_false {s : MazeState} (h : s.turn ≠ END_TURN) :
    s.is_done = false := by
  simp only [MazeState.is_done, beq_eq_false_iff_ne, ne_eq]
  exact h

theorem chokPops_fst_sub {t : Nat} :
    ∀ {i : Nat} {nowB nextB : List MazeState},
      ∀ s ∈ (chokPops t i nowB nextB).1, s ∈ nowB := by
  intro i
  induction i with
  | zero => intro nowB nextB s hs; exact hs
  | succ i ih =>
      intro nowB nextB s hs
      cases nowB with
      | nil => simp only [chokPops] at hs; simp at hs
      | cons p rest =>
          simp only [chokPops] at hs
          by_cases hd : (p.clone).is_done
          · rw [if_pos hd] at hs; exact hs
          · rw [if_neg hd] at hs
            exact List.mem_cons_of_mem p (ih s hs)

theorem chokPops_snd_mem {t : Nat} :
    ∀ {i : Nat} {nowB nextB : List MazeState},
      ∀ s ∈ (chokPops t i nowB nextB).2,
        s ∈ nextB ∨ ∃ p ∈ nowB, ∃ a ∈ p.legal_actions,
          s = expandChild t p a := by
  intro i
  induction i with
  | zero => intro nowB nextB s hs; exact Or.inl hs
  | succ i ih =>
      intro nowB nextB s hs
      cases nowB with
      | nil => exact Or.inl (by simp only [chokPops] at hs; exact hs)
      | cons p rest =>
          simp only [chokPops] at hs
          by_cases hd : (p.clone).is_done
          · rw [if_pos hd] at hs; exact Or.inl hs
          · rw [if_neg hd] at hs
            rcases ih s hs with hi | ⟨q, hq, a, ha, rfl⟩
            · rcases mem_hpushAll.1 hi with hic | hio
              · obtain ⟨a, ha, rfl⟩ := List.mem_map.1 hic
                exact Or.inr ⟨p, List.mem_cons_self p rest, a, ha, rfl⟩
              · exact Or.inl hio
            · exact Or.inr ⟨q, List.mem_cons_of_mem p hq, a, ha, rfl⟩

theorem chokPops_snd_grow {t : Nat} :
    ∀ {i : Nat} {nowB nextB : List MazeState},
      nextB ≠ [] → (chokPops t i nowB nextB).2 ≠ [] := by
  intro i
  induction i with
  | zero => intro nowB nextB h; exact h
  | succ i ih =>
      intro nowB nextB h
      cases nowB with
      | nil => simp only [chokPops]; exact h
      | cons p rest =>
          simp only [chokPops]
          by_cases hd : (p.clone).is_done
          · rw [if_pos hd]; exact h
          · rw [if_neg hd]
            exact ih (hpushAll_ne_nil (Or.inr h))

theorem chokPops_live {t i : Nat} {nowB nextB : List MazeState}
    (hi : 1 ≤ i) (hne : nowB ≠ []) (hg : ∀ p ∈ nowB, inGrid p) :
    (chokPops t i nowB nextB).1 ≠ [] ∨ (chokPops t i nowB nextB).2 ≠ [] := by
  cases i with
  | zero => omega
  | succ i =>
      cases nowB with
      | nil => exact absurd rfl hne
      | cons p rest =>
          simp only [chokPops]
          by_cases hd : (p.clone).is_done
          · rw [if_pos hd]
            exact Or.inl (List.cons_ne_nil p rest)
          · rw [if_neg hd]
            refine Or.inr (chokPops_snd_grow (hpushAll_ne_nil (Or.inl ?_)))
            have := legal_actions_ne_nil p (hg p (List.mem_cons_self p rest))
            simpa using this

theorem chokDepth_at {w : Nat} {beams : Nat → List MazeState} {t u : Nat} :
    chokDepth w beams t u =
      if u = t then (chokPops t w (beams t) (beams (t + 1))).1
      else if u = t + 1 then (chokPops t w (beams t) (beams (t + 1))).2
      else beams u := rfl

/-- Global invariant on the chokudai frontiers: frontier 0 only ever holds
the root, every frontier state is in the grid, and every state at depth
at least 1 carries a stamped legal first action. -/
def ChokInv (root : MazeState) (beams : Nat → List MazeState) : Prop :=
  (∀ s ∈ beams 0, s = root) ∧
  (∀ u, ∀ s ∈ beams u, inGrid s) ∧
  (∀ u, u ≠ 0 → ∀ s ∈ beams u, StampedLegal root s)

/-- Some frontier at depth 1..d is non-empty. -/
def ChokLive (d : Nat) (beams : Nat → List MazeState) : Prop :=
  ∃ v, 1 ≤ v ∧ v ≤ d ∧ beams v ≠ []

theorem chokDepth_inv {root : MazeState} {w : Nat}
    {beams : Nat → List MazeState} {t : Nat}
    (hinv : ChokInv root beams) : ChokInv root (chokDepth w beams t) := by
  obtain ⟨h0, hg, hsl⟩ := hinv
  have hsnd : ∀ s ∈ (chokPops t w (beams t) (beams (t + 1))).2,
      inGrid s ∧ StampedLegal root s := by
    intro s hs
    rcases chokPops_snd_mem s hs with ho | ⟨p, hp, a, ha, rfl⟩
    · exact ⟨hg (t + 1) s ho, hsl (t + 1) (Nat.succ_ne_zero t) s ho⟩
    · refine ⟨expandChild_inGrid t p a (hg t p hp) ha,
        expandChild_stamped t root p a ha ⟨fun h => h0 p (h ▸ hp), fun h => hsl t h p hp⟩⟩
  refine ⟨?_, ?_, ?_⟩
  · intro s hs
    rw [chokDepth_at] at hs
    by_cases h1 : (0 : Nat) = t
    · rw [if_pos h1] at hs
      exact h0 s (h1 ▸ chokPops_fst_sub s hs)
    · rw [if_neg h1, if_neg (by omega)] at hs
      exact h0 s hs
  · intro u s hs
    rw [chokDepth_at] at hs
    by_cases h1 : u = t
    · rw [if_pos h1] at hs
      exact hg t s (chokPops_fst_sub s hs)
    · rw [if_neg h1] at hs
      by_cases h2 : u = t + 1
      · rw [if_pos h2] at hs
        exact (hsnd s hs).1
      · rw [if_neg h2] at hs
        exact hg u s hs
  · intro u hu s hs
    rw [chokDepth_at] at hs
    by_cases h1 : u = t
    · rw [if_pos h1] at hs
      exact hsl u hu s (h1 ▸ chokPops_fst_sub s hs)
    · rw [if_neg h1] at hs
      by_cases h2 : u = t + 1
      · rw [if_pos h2] at hs
        exact (hsnd s hs).2
      · rw [if_neg h2] at hs
        exact hsl u hu s hs

theorem chokDepth_live {root : MazeState} {w d : Nat}
    {beams : Nat → List MazeState} {t : Nat}
    (hw : 1 ≤ w) (hinv : ChokInv root beams) (htd : t < d)
    (hlive : ChokLive d beams) : ChokLive d (chokDepth w beams t) := by
  obtain ⟨v, hv1, hv2, hvne⟩ := hlive
  by_cases h1 : v = t
  · subst h1
    rcases @chokPops_live v w (beams v) (beams (v + 1)) hw hvne
        (hinv.2.1 v) with hfst | hsnd
    · exact ⟨v, hv1, hv2, by rw [chokDepth_at, if_pos rfl]; exact hfst⟩
    · refine ⟨v + 1, by omega, by omega, ?_⟩
      rw [chokDepth_at, if_neg (by omega), if_pos rfl]
      exact hsnd
  · by_cases h2 : v = t + 1
    · refine ⟨v, hv1, hv2, ?_⟩
      rw [chokDepth_at, if_neg h1, if_pos h2]
      exact chokPops_snd_grow (h2 ▸ hvne)
    · exact ⟨v, hv1, hv2, by rw [chokDepth_at, if_neg h1, if_neg h2]; exact hvne⟩

theorem foldl_chokDepth_inv {root : MazeState} {w : Nat} :
    ∀ (l : List Nat) (beams : Nat → List MazeState), ChokInv root beams →
      ChokInv root (l.foldl (chokDepth w) beams) := by
  intro l
  induction l with
  | nil => intro beams h; exact h
  | cons t l ih =>
      intro beams h
      exact ih (chokDepth w beams t) (chokDepth_inv h)

theorem foldl_chokDepth_good {root : MazeState} {w d : Nat} (hw : 1 ≤ w) :
    ∀ (l : List Nat) (beams : Nat → List MazeState), (∀ t ∈ l, t < d) →
      ChokInv root beams → ChokLive d beams →
      ChokLive d (l.foldl (chokDepth w) beams) := by
  intro l
  induction l with
  | nil => intro beams _ _ h; exact h
  | cons t l ih =>
      intro beams hl hinv hlive
      exact ih (chokDepth w beams t) (fun u hu => hl u (List.mem_cons_of_mem t hu))
        (chokDepth_inv hinv)
        (chokDepth_live hw hinv (hl t (List.mem_cons_self t l)) hlive)

theorem chokRound_inv {root : MazeState} {w d : Nat}
    {beams : Nat → List MazeState} (hinv : ChokInv root beams) :
    ChokInv root (chokRound w d beams) :=
  foldl_chokDepth_inv (List.range d) beams hinv

theorem chokRound_live {root : MazeState} {w d : Nat}
    {beams : Nat → List MazeState} (hw : 1 ≤ w) (hinv : ChokInv root beams)
    (hlive : ChokLive d beams) : ChokLive d (chokRound w d beams) :=
  foldl_chokDepth_good hw (List.range d) beams
    (fun _ ht => List.mem_range.1 ht) hinv hlive

theorem chokPops_nil_snd (t : Nat) (nextB : List MazeState) :
    ∀ i, (chokPops t i ([] : List MazeState) nextB).2 = nextB := by
  intro i; cases i <;> rfl

theorem chokInit_inv {root : MazeState} (hg : inGrid root) :
    ChokInv root (chokInit root) := by
  refine ⟨?_, ?_, ?_⟩
  · intro s hs
    rw [show chokInit root 0 = [root.clone] from rfl, List.mem_singleton] at hs
    rw [hs, clone_eq]
  · intro u s hs
    by_cases hu : u = 0
    · subst hu
      rw [show chokInit root 0 = [root.clone] from rfl, List.mem_singleton] at hs
      rw [hs, clone_eq]; exact hg
    · rw [show chokInit root u = if u = 0 then [root.clone] else [] from rfl,
        if_neg hu] at hs
      exact absurd hs (List.not_mem_nil s)
  · intro u hu s hs
    rw [show chokInit root u = if u = 0 then [root.clone] else [] from rfl,
      if_neg hu] at hs
    exact absurd hs (List.not_mem_nil s)

theorem chokRound_first {root : MazeState} {w d : Nat}
    (hw : 1 ≤ w) (hd : 1 ≤ d) (hg : inGrid root)
    (hnd : root.turn ≠ END_TURN) :
    ChokInv root (chokRound w d (chokInit root)) ∧
      ChokLive d (chokRound w d (chokInit root)) := by
  have hinv0 := @chokInit_inv root hg
  refine ⟨chokRound_inv hinv0, ?_⟩
  obtain ⟨d', rfl⟩ : ∃ f, d = f + 1 := ⟨d - 1, by omega⟩
  unfold chokRound
  rw [List.range_succ_eq_map, List.foldl_cons]
  have hinv1 : ChokInv root (chokDepth w (chokInit root) 0) :=
    chokDepth_inv hinv0
  have hlive1 : ChokLive (d' + 1) (chokDepth w (chokInit root) 0) := by
    refine ⟨1, le_refl 1, by omega, ?_⟩
    rw [chokDepth_at, if_neg (by omega), if_pos rfl]
    rw [show chokInit root 0 = [root.clone] from rfl]
    rw [show chokInit root 1 = ([] : List MazeState) from rfl]
    obtain ⟨w', rfl⟩ : ∃ f, w = f + 1 := ⟨w - 1, by omega⟩
    have hnotdone : ((root.clone).clone).is_done = false := by
      rw [clone_eq, clone_eq]; exact is_done_false hnd
    show (chokPops 0 (w' + 1) (root.clone :: []) []).2 ≠ []
    simp only [chokPops]
    rw [hnotdone]
    simp only [Bool.false_eq_true, if_false]
    rw [chokPops_nil_snd]
    refine hpushAll_ne_nil (Or.inl ?_)
    have := legal_actions_ne_nil (root.clone) (by rw [clone_eq]; exact hg)
    simpa using this
  refine foldl_chokDepth_good hw _ _ ?_ hinv1 hlive1
  intro u hu
  obtain ⟨j, hj, rfl⟩ := List.mem_map.1 hu
  have := List.mem_range.1 hj
  omega

theorem chokScan_stamped {root : MazeState} {beams : Nat → List MazeState}
    (hsl : ∀ u, u ≠ 0 → ∀ s ∈ beams u, StampedLegal root s) :
    ∀ k, (∃ v, 1 ≤ v ∧ v ≤ k ∧ beams v ≠ []) →
      ∃ a ∈ root.legal_actions, chokScan beams k = RunRes.ret a := by
  intro k
  induction k with
  | zero => rintro ⟨v, h1, h2, -⟩; omega
  | succ k ih =>
      rintro ⟨v, h1, h2, hvne⟩
      cases hb : beams (k + 1) with
      | cons b bs =>
          have hsb := hsl (k + 1) (Nat.succ_ne_zero k) b
            (by rw [hb]; exact List.mem_cons_self b bs)
          obtain ⟨a, ha, heq⟩ := stamped_ret_legal root b hsb
          refine ⟨a, ha, ?_⟩
          simp only [chokScan]
          rw [hb]
          exact heq
      | nil =>
          have hscan : chokScan beams (k + 1) = chokScan beams k := by
            simp only [chokScan]
            rw [hb]
          rw [hscan]
          apply ih
          have hvk : v ≠ k + 1 := fun hv => hvne (hv ▸ hb)
          exact ⟨v, h1, by omega, hvne⟩

theorem chokLoop_legal {root : MazeState} {w d n : Nat}
    {oracle : Nat → Bool} (hw : 1 ≤ w) (hn : oracle n = true) :
    ∀ fuel c beams, ChokInv root beams → ChokLive d beams →
      c ≤ n → n + 1 ≤ fuel + c →
      ∃ a ∈ root.legal_actions,
        chokLoop w d oracle fuel beams c = RunRes.ret a := by
  intro fuel
  induction fuel with
  | zero => intro c beams _ _ hc hfc; omega
  | succ fuel ih =>
      intro c beams hinv hlive hc hfc
      have hinv' := chokRound_inv (w := w) (d := d) hinv
      have hlive' := chokRound_live hw hinv hlive
      by_cases hoc : oracle c
      · obtain ⟨a, ha, heq⟩ := chokScan_stamped hinv'.2.2 d hlive'
        refine ⟨a, ha, ?_⟩
        show (if oracle c then chokScan (chokRound w d beams) d
          else chokLoop w d oracle fuel (chokRound w d beams) (c + 1)) =
            RunRes.ret a
        rw [if_pos hoc]
        exact heq
      · have hcn : c < n := by
          rcases Nat.lt_or_ge c n with h | h
          · exact h
          · have hcne : c = n := by omega
            subst hcne
            rw [hn] at hoc
            exact absurd rfl hoc
        obtain ⟨a, ha, heq⟩ :=
          ih (c + 1) (chokRound w d beams) hinv' hlive' (by omega) (by omega)
        refine ⟨a, ha, ?_⟩
        show (if oracle c then chokScan (chokRound w d beams) d
          else chokLoop w d oracle fuel (chokRound w d beams) (c + 1)) =
            RunRes.ret a
        rw [if_neg hoc]
        exact heq

theorem chok_search_legal {root : MazeState} {w d n fuel : Nat}
    {oracle : Nat → Bool} (hw : 1 ≤ w) (hd : 1 ≤ d) (hg : inGrid root)
    (hnd : root.turn ≠ END_TURN) (hn : oracle n = true)
    (hfuel : n + 1 ≤ fuel) :
    ∃ a ∈ root.legal_actions,
      chokudai_search_action_wirh_time_threshold root w d oracle fuel =
        RunRes.ret a := by
  obtain ⟨fuel', rfl⟩ : ∃ f, fuel = f + 1 := ⟨fuel - 1, by omega⟩
  obtain ⟨hinv1, hlive1⟩ := chokRound_first (w := w) (d := d) hw hd hg hnd
  unfold chokudai_search_action_wirh_time_threshold
  by_cases h0 : oracle 0
  · obtain ⟨a, ha, heq⟩ := chokScan_stamped hinv1.2.2 d hlive1
    refine ⟨a, ha, ?_⟩
    show (if oracle 0 then chokScan (chokRound w d (chokInit root)) d
      else chokLoop w d oracle fuel' (chokRound w d (chokInit root)) 1) =
        RunRes.ret a
    rw [if_pos h0]
    exact heq
  · have hn1 : 1 ≤ n := by
      rcases Nat.eq_zero_or_pos n with h | h
      · subst h; rw [hn] at h0; exact absurd rfl h0
      · exact h
    obtain ⟨a, ha, heq⟩ := chokLoop_legal hw hn fuel' 1
      (chokRound w d (chokInit root)) hinv1 hlive1 hn1 (by omega)
    refine ⟨a, ha, ?_⟩
    show (if oracle 0 then chokScan (chokRound w d (chokInit root)) d
      else chokLoop w d oracle fuel' (chokRound w d (chokInit root)) 1) =
        RunRes.ret a
    rw [if_neg h0]
    exact heq

/-- What the beam-search pop loop pushes when the clock never fires:
the pure frontier-to-frontier function underlying one round. -/
def popsAcc (t : Nat) : Nat → List MazeState → List MazeState → List MazeState
  | 0, _, nextB => nextB
  | _ + 1, [], nextB => nextB
  | i + 1, s :: rest, nextB =>
      popsAcc t i rest
        (hpushAll ((s.legal_actions).map (expandChild t s)) nextB)

/-- The beam-search frontier after `k` completed rounds under a clock that
never reports expiry. -/
def frontierAfter (root : MazeState) (w : Nat) : Nat → List MazeState
  | 0 => [root.clone]
  | k + 1 => popsAcc k w (frontierAfter root w k) []

theorem beamPops_all_false {oracle : Nat → Bool} {root best : MazeState}
    {t : Nat} (hor : ∀ j, oracle j = false) :
    ∀ {i : Nat} {nowB nextB : List MazeState} {c : Nat},
      ∃ rem c', beamPops oracle root best t i nowB nextB c =
        Sum.inr (rem, popsAcc t i nowB nextB, c') := by
  intro i
  induction i with
  | zero => intro nowB nextB c; exact ⟨nowB, c, rfl⟩
  | succ i ih =>
      intro nowB nextB c
      cases nowB with
      | nil =>
          refine ⟨[], c + 1, ?_⟩
          simp only [beamPops]
          rw [if_neg (by rw [hor c]; exact Bool.false_ne_true)]
          rfl
      | cons s rest =>
          obtain ⟨rem, c', h⟩ := @ih rest
            (hpushAll ((s.legal_actions).map (expandChild t s)) nextB)
            (c + 1)
          refine ⟨rem, c', ?_⟩
          simp only [beamPops]
          rw [if_neg (by rw [hor c]; exact Bool.false_ne_true)]
          exact h

theorem popsAcc_mem {t : Nat} :
    ∀ {i : Nat} {nowB nextB : List MazeState},
      ∀ s ∈ popsAcc t i nowB nextB,
        s ∈ nextB ∨ ∃ p ∈ nowB, ∃ a ∈ p.legal_actions,
          s = expandChild t p a := by
  intro i
  induction i with
  | zero => intro nowB nextB s hs; exact Or.inl hs
  | succ i ih =>
      intro nowB nextB s hs
      cases nowB with
      | nil => exact Or.inl hs
      | cons p rest =>
          simp only [popsAcc] at hs
          rcases ih s hs with hi | ⟨q, hq, a, ha, rfl⟩
          · rcases mem_hpushAll.1 hi with hic | hio
            · obtain ⟨a, ha, rfl⟩ := List.mem_map.1 hic
              exact Or.inr ⟨p, List.mem_cons_self p rest, a, ha, rfl⟩
            · exact Or.inl hio
          · exact Or.inr ⟨q, List.mem_cons_of_mem p hq, a, ha, rfl⟩

theorem popsAcc_grow {t : Nat} :
    ∀ {i : Nat} {nowB nextB : List MazeState},
      nextB ≠ [] → popsAcc t i nowB nextB ≠ [] := by
  intro i
  induction i with
  | zero => intro nowB nextB h; exact h
  | succ i ih =>
      intro nowB nextB h
      cases nowB with
      | nil => exact h
      | cons p rest =>
          simp only [popsAcc]
          exact ih (hpushAll_ne_nil (Or.inr h))

theorem popsAcc_ne_nil {t i : Nat} {nowB nextB : List MazeState}
    (hi : 1 ≤ i) (hne : nowB ≠ []) (hg : ∀ p ∈ nowB, inGrid p) :
    popsAcc t i nowB nextB ≠ [] := by
  cases i with
  | zero => omega
  | succ i =>
      cases nowB with
      | nil => exact absurd rfl hne
      | cons p rest =>
          simp only [popsAcc]
          refine popsAcc_grow (hpushAll_ne_nil (Or.inl ?_))
          have := legal_actions_ne_nil p (hg p (List.mem_cons_self p rest))
          simpa using this

theorem frontierAfter_inv {root : MazeState} {w : Nat} (hw : 1 ≤ w)
    (hg : inGrid root) :
    ∀ k, frontierAfter root w k ≠ [] ∧
      ∀ s ∈ frontierAfter root w k, inGrid s ∧ s.turn = root.turn + k := by
  intro k
  induction k with
  | zero =>
      refine ⟨by simp [frontierAfter], ?_⟩
      intro s hs
      rw [show frontierAfter root w 0 = [root.clone] from rfl,
        List.mem_singleton] at hs
      rw [hs, clone_eq]
      exact ⟨hg, rfl⟩
  | succ k ih =>
      obtain ⟨hne, hmem⟩ := ih
      constructor
      · exact popsAcc_ne_nil hw hne (fun p hp => (hmem p hp).1)
      · intro s hs
        rcases popsAcc_mem s hs with h | ⟨p, hp, a, ha, rfl⟩
        · exact absurd h (List.not_mem_nil s)
        · have hpm := hmem p hp
          refine ⟨expandChild_inGrid k p a hpm.1 ha, ?_⟩
          rw [expandChild_turn, hpm.2]
          omega

theorem beamLoop_never_ret {root : MazeState} {w : Nat} (hw : 1 ≤ w)
    (hg : inGrid root) (ht : root.turn < END_TURN) :
    ∀ (m k : Nat) (best : MazeState) (c : Nat),
      k + m = END_TURN - root.turn → 1 ≤ m →
      ∃ b rest,
        frontierAfter root w (END_TURN - root.turn) = b :: rest ∧
        beamLoop (fun _ => false) root w m (frontierAfter root w k) best k c =
          RunRes.ret (usizeCast b.first_action) := by
  intro m
  induction m with
  | zero => intro k best c h1 h2; omega
  | succ m ih =>
      intro k best c hkm h1
      obtain ⟨rem, c', hpops⟩ := @beamPops_all_false (fun _ => false) root
        best k (fun _ => rfl) w (frontierAfter root w k) [] c
      have hinv := frontierAfter_inv hw hg (k + 1)
      obtain ⟨b, rest, hb⟩ : ∃ b rest,
          frontierAfter root w (k + 1) = b :: rest := by
        cases hfb : frontierAfter root w (k + 1) with
        | nil => exact absurd hfb hinv.1
        | cons b rest => exact ⟨b, rest, rfl⟩
      have hbturn : b.turn = root.turn + (k + 1) :=
        (hinv.2 b (by rw [hb]; exact List.mem_cons_self b rest)).2
      have hfront : popsAcc k w (frontierAfter root w k) [] = b :: rest := hb
      by_cases hm : m = 0
      · subst hm
        have hk1 : k + 1 = END_TURN - root.turn := by omega
        refine ⟨b, rest, by rw [← hk1]; exact hb, ?_⟩
        simp only [beamLoop]
        rw [hpops, hfront]
        show (if b.turn = END_TURN then RunRes.ret (usizeCast b.first_action)
          else beamLoop (fun _ => false) root w 0 (b :: rest) b (k + 1) c') =
            RunRes.ret (usizeCast b.first_action)
        rw [if_pos (by omega)]
      · have hbnotdone : b.turn ≠ END_TURN := by omega
        obtain ⟨b', rest', hb', hrec⟩ := ih (k + 1) b c' (by omega) (by omega)
        refine ⟨b', rest', hb', ?_⟩
        simp only [beamLoop]
        rw [hpops, hfront]
        show (if b.turn = END_TURN then RunRes.ret (usizeCast b.first_action)
          else beamLoop (fun _ => false) root w m (b :: rest) b (k + 1) c') =
            RunRes.ret (usizeCast b'.first_action)
        rw [if_neg hbnotdone, ← hb]
        exact hrec

theorem beamPops_congr {o1 o2 : Nat → Bool} {root best : MazeState}
    {t n : Nat} (hag : ∀ j, j ≤ n → o1 j = o2 j) (hn : o1 n = true) :
    ∀ {i : Nat} {nowB nextB : List MazeState} {c : Nat}, c ≤ n →
      beamPops o1 root best t i nowB nextB c =
        beamPops o2 root best t i nowB nextB c := by
  intro i
  induction i with
  | zero => intro nowB nextB c _; rfl
  | succ i ih =>
      intro nowB nextB c hc
      simp only [beamPops]
      rw [← hag c hc]
      by_cases hoc : o1 c
      · rw [if_pos hoc, if_pos hoc]
      · rw [if_neg hoc, if_neg hoc]
        cases nowB with
        | nil => rfl
        | cons s rest =>
            apply ih
            have hcn : c ≠ n := fun h => by
              rw [h, hn] at hoc; exact hoc rfl
            omega

theorem beamLoop_congr {o1 o2 : Nat → Bool} {root : MazeState} {w n : Nat}
    (hag : ∀ j, j ≤ n → o1 j = o2 j) (hn : o1 n = true) :
    ∀ (fuel : Nat) (nowB : List MazeState) (best : MazeState) (t c : Nat),
      c ≤ n →
      beamLoop o1 root w fuel nowB best t c =
        beamLoop o2 root w fuel nowB best t c := by
  intro fuel
  induction fuel with
  | zero => intros; rfl
  | succ fuel ih =>
      intro nowB best t c hc
      simp only [beamLoop]
      rw [← beamPops_congr hag hn hc]
      cases hres : beamPops o1 root best t w nowB [] c with
      | inl r => rfl
      | inr out =>
          obtain ⟨rem, nextB', c'⟩ := out
          obtain ⟨-, hfalse, -⟩ := beamPops_inr_facts hres
          have hc' : c' ≤ n := by
            by_contra hgt
            have hnf := hfalse n hc (by omega)
            rw [hn] at hnf
            cases hnf
          cases nextB' with
          | nil => rfl
          | cons b rest =>
              show (if b.turn = END_TURN then
                  RunRes.ret (usizeCast b.first_action)
                else beamLoop o1 root w fuel (b :: rest) b (t + 1) c') =
                (if b.turn = END_TURN then
                  RunRes.ret (usizeCast b.first_action)
                else beamLoop o2 root w fuel (b :: rest) b (t + 1) c')
              by_cases hdone : b.turn = END_TURN
              · rw [if_pos hdone, if_pos hdone]
              · rw [if_neg hdone, if_neg hdone]
                exact ih (b :: rest) b (t + 1) c' hc'

theorem chokLoop_congr {o1 o2 : Nat → Bool} {w d n : Nat}
    (hag : ∀ j, j ≤ n → o1 j = o2 j) (hn : o1 n = true) :
    ∀ (fuel : Nat) (beams : Nat → List MazeState) (c : Nat), c ≤ n →
      chokLoop w d o1 fuel beams c = chokLoop w d o2 fuel beams c := by
  intro fuel
  induction fuel with
  | zero => intros; rfl
  | succ fuel ih =>
      intro beams c hc
      show (if o1 c then chokScan (chokRound w d beams) d
          else chokLoop w d o1 fuel (chokRound w d beams) (c + 1)) =
        (if o2 c then chokScan (chokRound w d beams) d
          else chokLoop w d o2 fuel (chokRound w d beams) (c + 1))
      rw [← hag c hc]
      by_cases hoc : o1 c
      · rw [if_pos hoc, if_pos hoc]
      · rw [if_neg hoc, if_neg hoc]
        apply ih
        have hcn : c ≠ n := fun h => by rw [h, hn] at hoc; exact hoc rfl
        omega

theorem chokLoop_rounds {w d : Nat} {oracle : Nat → Bool} :
    ∀ (n fuel c : Nat) (beams : Nat → List MazeState),
      (∀ i, i < n → oracle (c + i) = false) → oracle (c + n) = true →
      n + 1 ≤ fuel →
      chokLoop w d oracle fuel beams c =
        chokScan ((chokRound w d)^[n + 1] beams) d := by
  intro n
  induction n with
  | zero =>
      intro fuel c beams hfalse htrue hfuel
      obtain ⟨f, rfl⟩ : ∃ f, fuel = f + 1 := ⟨fuel - 1, by omega⟩
      show (if oracle c then chokScan (chokRound w d beams) d
        else chokLoop w d oracle f (chokRound w d beams) (c + 1)) = _
      rw [Nat.add_zero] at htrue
      rw [if_pos htrue, Function.iterate_one]
  | succ n ih =>
      intro fuel c beams hfalse htrue hfuel
      obtain ⟨f, rfl⟩ : ∃ f, fuel = f + 1 := ⟨fuel - 1, by omega⟩
      show (if oracle c then chokScan (chokRound w d beams) d
        else chokLoop w d oracle f (chokRound w d beams) (c + 1)) = _
      have h0 : oracle c = false := by
        have := hfalse 0 (by omega)
        rwa [Nat.add_zero] at this
      rw [if_neg (by rw [h0]; exact Bool.false_ne_true)]
      rw [ih f (c + 1) (chokRound w d beams)
        (fun i hi => by
          rw [show c + 1 + i = c + (i + 1) from by omega]
          exact hfalse (i + 1) (by omega))
        (by rw [show c + 1 + n = c + (n + 1) from by omega]; exact htrue)
        (by omega)]
      rw [← Function.iterate_succ_apply]

/-- The heap order invariant of the sorted-list model: scores descend. -/
def heapSorted (l : List MazeState) : Prop :=
  List.Chain' (fun a b => b.evaluated_score ≤ a.evaluated_score) l

theorem heapSorted_head_max {b : MazeState} {l : List MazeState}
    (h : heapSorted (b :: l)) :
    ∀ x ∈ b :: l, x.evaluated_score ≤ b.evaluated_score := by
  induction l generalizing b with
  | nil =>
      intro x hx
      rw [List.mem_singleton] at hx
      rw [hx]
  | cons c l ih =>
      rw [heapSorted, List.chain'_cons] at h
      intro x hx
      rcases List.mem_cons.1 hx with rfl | hx'
      · exact le_refl _
      · exact le_trans (ih h.2 x hx') h.1

theorem hpush_sorted {s : MazeState} {l : List MazeState}
    (h : heapSorted l) : heapSorted (hpush s l) := by
  induction l with
  | nil => simp [hpush, heapSorted]
  | cons x xs ih =>
      rw [heapSorted] at h ih ⊢
      unfold hpush
      by_cases hle : s.evaluated_score ≤ x.evaluated_score
      · rw [if_pos hle]
        have hxs := (List.chain'_cons'.1 h).2
        have hx := ih hxs
        rw [List.chain'_cons']
        refine ⟨?_, hx⟩
        intro y hy
        cases xs with
        | nil =>
            simp only [hpush, List.head?_cons, Option.mem_def] at hy
            rw [← Option.some_inj.1 hy]
            exact hle
        | cons z zs =>
            simp only [hpush] at hy
            by_cases hz : s.evaluated_score ≤ z.evaluated_score
            · rw [if_pos hz] at hy
              simp only [List.head?_cons, Option.mem_def] at hy
              have := (List.chain'_cons'.1 h).1 z (by simp)
              rw [← Option.some_inj.1 hy]
              exact this
            · rw [if_neg hz] at hy
              simp only [List.head?_cons, Option.mem_def] at hy
              rw [← Option.some_inj.1 hy]
              exact hle
      · rw [if_neg hle]
        rw [List.chain'_cons]
        exact ⟨by omega, h⟩

/-- The grid cell entered by `advance s a` (row, column, after the `as
usize` casts used for indexing). -/
def targetIdx (s : MazeState) (a : Nat) : Nat × Nat :=
  (usizeCast (s.character.y + dyv a), usizeCast (s.character.x + dxv a))

theorem advance_points_frame (s : MazeState) (a : Nat) (y x : Nat)
    (hne : ¬(y = (targetIdx s a).1 ∧ x = (targetIdx s a).2)) :
    ((s.advance a)).points y x = s.points y x := by
  show (if 0 < s.points (usizeCast (s.character.y + dyv a))
      (usizeCast (s.character.x + dxv a)) then
      (fun yy xx =>
        if yy = usizeCast (s.character.y + dyv a) ∧
            xx = usizeCast (s.character.x + dxv a) then 0
        else s.points yy xx)
    else s.points) y x = s.points y x
  by_cases hp : 0 < s.points (usizeCast (s.character.y + dyv a))
      (usizeCast (s.character.x + dxv a))
  · rw [if_pos hp]
    exact if_neg hne
  · rw [if_neg hp]

theorem beamPops_inr_origin {oracle : Nat → Bool} {root best : MazeState}
    {t : Nat} :
    ∀ {i : Nat} {nowB nextB : List MazeState} {c : Nat}
      {nowB' nextB' : List MazeState} {c' : Nat},
      beamPops oracle root best t i nowB nextB c =
          Sum.inr (nowB', nextB', c') →
      ∀ s ∈ nextB', s ∈ nextB ∨ ∃ p ∈ nowB, ∃ a ∈ p.legal_actions,
        s = expandChild t p a := by
  intro i
  induction i with
  | zero =>
      intro nowB nextB c nowB' nextB' c' h s hs
      simp only [beamPops, Sum.inr.injEq, Prod.mk.injEq] at h
      obtain ⟨-, rfl, -⟩ := h
      exact Or.inl hs
  | succ i ih =>
      intro nowB nextB c nowB' nextB' c' h s hs
      unfold beamPops at h
      by_cases hc : oracle c
      · rw [if_pos hc] at h; cases h
      · rw [if_neg hc] at h
        cases nowB with
        | nil =>
            simp only [Sum.inr.injEq, Prod.mk.injEq] at h
            obtain ⟨-, rfl, -⟩ := h
            exact Or.inl hs
        | cons p rest =>
            rcases ih h s hs with hi | ⟨q, hq, a, ha, rfl⟩
            · rcases mem_hpushAll.1 hi with hic | hio
              · obtain ⟨a, ha, rfl⟩ := List.mem_map.1 hic
                exact Or.inr ⟨p, List.mem_cons_self p rest, a, ha, rfl⟩
              · exact Or.inl hio
            · exact Or.inr ⟨q, List.mem_cons_of_mem p hq, a, ha, rfl⟩

theorem chokScan_at_deepest {beams : Nat → List MazeState} {T : Nat}
    {b : MazeState} {rest : List MazeState} (hT : beams T = b :: rest) :
    ∀ d, T ≤ d → (∀ u, T < u → u ≤ d → beams u = []) →
      chokScan beams d = RunRes.ret (usizeCast b.first_action) := by
  intro d
  induction d with
  | zero =>
      intro hTd _
      have hT0 : T = 0 := by omega
      subst hT0
      simp only [chokScan]
      rw [hT]
  | succ d ih =>
      intro hTd hempty
      by_cases hTe : T = d + 1
      · subst hTe
        simp only [chokScan]
        rw [hT]
      · have h1 : beams (d + 1) = [] := hempty (d + 1) (by omega) (le_refl _)
        simp only [chokScan]
        rw [h1]
        exact ih (by omega) (fun u hu1 hu2 => hempty u hu1 (by omega))

/-- A state at the final frontier of the C5 witness. -/
def stamped0 : MazeState := { root0 with first_action := 2 }

/-- C1 (corrected) counterexample: with `beam_width = 0` (a choice of
parameters the claim quantifies over), the chokudai engine returns the
root's unset `first_action` cast `as usize`, i.e. 2^64 - 1, which is not a
member of `root.legal_actions()`. -/
theorem engines_param_counterexample :
    chokudai_search_action_wirh_time_threshold root0 0 1 (fun _ => true) 1 =
      RunRes.ret 18446744073709551615 ∧
    ¬(18446744073709551615 ∈ root0.legal_actions) := by
  decide

/-- C1 (amended): for beam search with `beam_width ≥ 1`, an in-grid root
with unset `first_action`, and a clock that eventually reports expiry (at
consultation `n`, with at least `n + 1` rounds of fuel), the engine
returns a member of `root.legal_actions()` and never panics; chokudai
likewise under `beam_width ≥ 1`, `beam_depth ≥ 1` and a non-terminal
root. -/
theorem engines_return_legal_action :
    ∀ (root : MazeState) (w d n fuel : Nat) (oracle : Nat → Bool),
      inGrid root → 1 ≤ w → oracle n = true → n + 1 ≤ fuel →
      (root.first_action = -1 →
        ∃ a ∈ root.legal_actions,
          beam_search_action_with_time_threshold root w oracle fuel =
            RunRes.ret a) ∧
      (1 ≤ d → root.turn ≠ END_TURN →
        ∃ a ∈ root.legal_actions,
          chokudai_search_action_wirh_time_threshold root w d oracle fuel =
            RunRes.ret a) := by
  intro root w d n fuel oracle hg hw hn hfuel
  constructor
  · intro hfa
    unfold beam_search_action_with_time_threshold
    apply beamLoop_legal oracle root w n hw hg hfa hn fuel 0 [root.clone]
      (root.clone) 0 (by omega) (by omega)
    refine ⟨List.cons_ne_nil _ _, ?_, fun _ => clone_eq root,
      fun h => absurd rfl h⟩
    intro p hp
    rw [List.mem_singleton] at hp
    subst hp
    exact ⟨by rw [clone_eq]; exact hg, fun _ => clone_eq root,
      fun h => absurd rfl h⟩
  · intro hd hnd
    exact chok_search_legal hw hd hg hnd hn hfuel

theorem engines_return_legal_action_witness :
    (∃ a ∈ root0.legal_actions,
      beam_search_action_with_time_threshold root0 1 (fun _ => true) 1 =
        RunRes.ret a) ∧
    (∃ a ∈ root0.legal_actions,
      chokudai_search_action_wirh_time_threshold root0 1 1 (fun _ => true) 1 =
        RunRes.ret a) := by
  have h := engines_return_legal_action root0 1 1 0 1 (fun _ => true)
    (by decide) (le_refl 1) rfl (le_refl 1)
  exact ⟨h.1 rfl, h.2 (le_refl 1) (by decide)⟩

/-- C2 (code bug): calling beam search with `beam_width = 0` runs zero pop
iterations, leaves the next frontier empty, and the code's
`now_beam.peek().unwrap()` (line 223) panics on `None` instead of
returning the fallback action the spec requires; the same unguarded
`unwrap` is the claimed empty-frontier guard that does not exist. -/
theorem beam_width_zero_panics :
    beam_search_action_with_time_threshold root0 0 (fun _ => false) 5 =
      RunRes.panicked := by
  decide

/-- C3: in beam search the clock is consulted at the top of every iteration
of the per-round pop loop (any remaining width `w ≥ 1`, any frontier, any
round), and an expired consultation makes the pop loop yield — and the
whole search return — `best.first_action` when set, else
`root.legal_actions()[0]`. -/
theorem beam_clock_abort_inner_loop :
    ∀ (oracle : Nat → Bool) (root best : MazeState)
      (t w fuel : Nat) (nowB nextB : List MazeState) (c : Nat),
      1 ≤ w → 1 ≤ fuel → oracle c = true →
      beamPops oracle root best t w nowB nextB c =
        Sum.inl (if best.first_action = -1 then
          (match root.legal_actions with
            | [] => RunRes.panicked
            | a :: _ => RunRes.ret a)
          else RunRes.ret (usizeCast best.first_action)) ∧
      beamLoop oracle root w fuel nowB best t c =
        (if best.first_action = -1 then
          (match root.legal_actions with
            | [] => RunRes.panicked
            | a :: _ => RunRes.ret a)
          else RunRes.ret (usizeCast best.first_action)) := by
  intro oracle root best t w fuel nowB nextB c hw hfuel hc
  have h1 := beamPops_expired oracle root best t w nowB nextB c hw hc
  have h2 := beamPops_expired oracle root best t w nowB [] c hw hc
  refine ⟨h1, ?_⟩
  obtain ⟨f, rfl⟩ : ∃ f, fuel = f + 1 := ⟨fuel - 1, by omega⟩
  simp only [beamLoop]
  rw [h2]
  rfl

theorem beam_clock_abort_inner_loop_witness :
    beamPops (fun _ => true) root0 root0 0 1 [root0] [] 0 =
      Sum.inl (RunRes.ret 0) ∧
    beamLoop (fun _ => true) root0 1 1 [root0] root0 0 0 = RunRes.ret 0 := by
  have h := beam_clock_abort_inner_loop (fun _ => true) root0 root0 0 1 1
    [root0] [] 0 (le_refl 1) (le_refl 1) rfl
  have hv : (if root0.first_action = -1 then
      (match root0.legal_actions with
        | [] => RunRes.panicked
        | a :: _ => RunRes.ret a)
      else RunRes.ret (usizeCast root0.first_action)) = RunRes.ret 0 := by
    decide
  exact ⟨by rw [h.1, hv], by rw [h.2, hv]⟩

/-- C4: the chokudai round function is defined with no access to the clock;
the engine consults the oracle exactly once after each completed round, so
when the first expired consultation is the `n`-th the result is the final
scan of exactly `n + 1` whole rounds applied to the initial frontiers. -/
theorem chokudai_clock_once_per_round :
    ∀ (root : MazeState) (w d n fuel : Nat) (oracle : Nat → Bool),
      (∀ i, i < n → oracle i = false) → oracle n = true → n + 1 ≤ fuel →
      chokudai_search_action_wirh_time_threshold root w d oracle fuel =
        chokScan ((chokRound w d)^[n + 1] (chokInit root)) d := by
  intro root w d n fuel oracle hfalse htrue hfuel
  unfold chokudai_search_action_wirh_time_threshold
  exact chokLoop_rounds n fuel 0 (chokInit root)
    (fun i hi => by rw [Nat.zero_add]; exact hfalse i hi)
    (by rw [Nat.zero_add]; exact htrue) hfuel

theorem chokudai_clock_once_per_round_witness :
    chokudai_search_action_wirh_time_threshold root0 1 1 (fun _ => true) 1 =
      chokScan ((chokRound 1 1)^[1] (chokInit root0)) 1 :=
  chokudai_clock_once_per_round root0 1 1 0 1 (fun _ => true)
    (fun i hi => absurd hi (by omega)) rfl (le_refl 1)

/-- C5: the final chokudai scan walks the frontiers from `beam_depth` down
to 0 and returns the `first_action` of the top state of the deepest
non-empty frontier; under the heap order that top state has maximal
evaluated score in its frontier. -/
theorem chokudai_answer_from_deepest :
    ∀ (beams : Nat → List MazeState) (d T : Nat) (b : MazeState)
      (rest : List MazeState),
      T ≤ d → beams T = b :: rest →
      (∀ u, T < u → u ≤ d → beams u = []) →
      heapSorted (beams T) →
      chokScan beams d = RunRes.ret (usizeCast b.first_action) ∧
        ∀ x ∈ beams T, x.evaluated_score ≤ b.evaluated_score := by
  intro beams d T b rest hTd hT hempty hsorted
  refine ⟨chokScan_at_deepest hT d hTd hempty, ?_⟩
  rw [hT] at hsorted ⊢
  exact heapSorted_head_max hsorted

theorem chokudai_answer_from_deepest_witness :
    chokScan (fun u => if u = 1 then [stamped0] else []) 2 =
      RunRes.ret 2 ∧
    ∀ x ∈ (fun u : Nat => if u = 1 then [stamped0] else []) 1,
      x.evaluated_score ≤ stamped0.evaluated_score := by
  have h := chokudai_answer_from_deepest
    (fun u => if u = 1 then [stamped0] else []) 2 1 stamped0 []
    (by omega) (by simp)
    (fun u h1 h2 => by
      have hu : u = 2 := by omega
      subst hu
      simp)
    (by simp [heapSorted])
  refine ⟨?_, h.2⟩
  rw [h.1]
  decide

/-- C6: `first_action` is written only by the `t == 0` stamp of the shared
expansion step; `advance` and `evaluate_score` never touch it, so a child
built at any depth `t ≥ 1` — in the beam pop loop or the chokudai pop loop
— carries its parent's `first_action` unchanged. -/
theorem first_action_stamped_once :
    ∀ (t : Nat) (p : MazeState) (a : Nat),
      (t = 0 → (expandChild t p a).first_action = Int.ofNat a) ∧
      (t ≠ 0 → (expandChild t p a).first_action = p.first_action) ∧
      (p.advance a).first_action = p.first_action ∧
      (p.evaluate_score).first_action = p.first_action ∧
      (∀ (oracle : Nat → Bool) (root best : MazeState) (i : Nat)
        (nowB nextB nowB' nextB' : List MazeState) (c c' : Nat),
        t ≠ 0 →
        beamPops oracle root best t i nowB nextB c =
          Sum.inr (nowB', nextB', c') →
        ∀ s ∈ nextB', s ∈ nextB ∨ ∃ q ∈ nowB,
          s.first_action = q.first_action) ∧
      (∀ (i : Nat) (nowB nextB : List MazeState), t ≠ 0 →
        ∀ s ∈ (chokPops t i nowB nextB).2, s ∈ nextB ∨ ∃ q ∈ nowB,
          s.first_action = q.first_action) := by
  intro t p a
  refine ⟨?_, expandChild_first_action_pos t p a,
    advance_first_action p a, rfl, ?_, ?_⟩
  · intro ht
    subst ht
    exact expandChild_first_action_zero p a
  · intro oracle root best i nowB nextB nowB' nextB' c c' ht hres s hs
    rcases beamPops_inr_origin hres s hs with h | ⟨q, hq, b, hb, rfl⟩
    · exact Or.inl h
    · exact Or.inr ⟨q, hq, expandChild_first_action_pos t q b ht⟩
  · intro i nowB nextB ht s hs
    rcases chokPops_snd_mem s hs with h | ⟨q, hq, b, hb, rfl⟩
    · exact Or.inl h
    · exact Or.inr ⟨q, hq, expandChild_first_action_pos t q b ht⟩

theorem first_action_stamped_once_witness :
    (expandChild 0 root0 2).first_action = Int.ofNat 2 ∧
    (expandChild 1 root0 2).first_action = root0.first_action :=
  ⟨(first_action_stamped_once 0 root0 2).1 rfl,
   (first_action_stamped_once 1 root0 2).2.1 (by omega)⟩

/-- C7 (corrected) counterexample: at a terminal root (`turn = END_TURN`),
with `beam_width = 1` and a clock that never expires, beam search is still
running after `END_TURN + 1` rounds (every expansion pushes the turn past
`END_TURN`, and `is_done` tests exact equality), so the claimed
termination within `END_TURN` rounds fails. -/
theorem beam_termination_counterexample :
    beam_search_action_with_time_threshold rootDone 1 (fun _ => false)
      (END_TURN + 1) = RunRes.fuelOut := by
  decide

/-- C7 (amended): when the clock never reports expiry, `beam_width ≥ 1`,
the root's character is in the grid and `root.turn < END_TURN`, every state
in the frontier after round `k` has turn `root.turn + k + 1`, so after
`END_TURN - root.turn ≤ END_TURN` rounds the best state is terminal, the
loop stops, and the engine returns that state's `first_action`. -/
theorem beam_search_terminates :
    ∀ (root : MazeState) (w : Nat), 1 ≤ w → inGrid root →
      root.turn < END_TURN →
      (∀ k, ∀ s ∈ frontierAfter root w (k + 1),
        s.turn = root.turn + k + 1) ∧
      ∃ b rest,
        frontierAfter root w (END_TURN - root.turn) = b :: rest ∧
        b.turn = END_TURN ∧
        beam_search_action_with_time_threshold root w (fun _ => false)
          (END_TURN - root.turn) = RunRes.ret (usizeCast b.first_action) := by
  intro root w hw hg ht
  constructor
  · intro k s hs
    have := (frontierAfter_inv hw hg (k + 1)).2 s hs
    omega
  · obtain ⟨b, rest, hb, hrun⟩ := beamLoop_never_ret hw hg ht
      (END_TURN - root.turn) 0 (root.clone) 0 (by omega) (by omega)
    refine ⟨b, rest, hb, ?_, hrun⟩
    have := (frontierAfter_inv hw hg (END_TURN - root.turn)).2 b
      (by rw [hb]; exact List.mem_cons_self b rest)
    omega

theorem beam_search_terminates_witness :
    ∃ b rest,
      frontierAfter root0 1 (END_TURN - root0.turn) = b :: rest ∧
      b.turn = END_TURN ∧
      beam_search_action_with_time_threshold root0 1 (fun _ => false)
        (END_TURN - root0.turn) = RunRes.ret (usizeCast b.first_action) :=
  (beam_search_terminates root0 1 (le_refl 1) (by decide) (by decide)).2

/-- C8: a state whose character is inside the H-by-W grid has a non-empty
`legal_actions()`, every such action is below 4 (so the `dx`/`dy` table
lookups in `advance` are in bounds), and `advance` keeps the character —
hence the `points` indexing — inside the grid. -/
theorem legal_actions_nonempty_and_safe :
    ∀ s : MazeState, inGrid s →
      s.legal_actions ≠ [] ∧
      ∀ a ∈ s.legal_actions, a < 4 ∧ inGrid (s.advance a) := by
  intro s hg
  refine ⟨legal_actions_ne_nil s hg, ?_⟩
  intro a ha
  exact ⟨((mem_legal_actions s a).1 ha).1, advance_inGrid s a hg ha⟩

theorem legal_actions_nonempty_and_safe_witness :
    root0.legal_actions ≠ [] ∧
    ∀ a ∈ root0.legal_actions, a < 4 ∧ inGrid (root0.advance a) :=
  legal_actions_nonempty_and_safe root0 (by decide)

/-- C9: cloning is a complete field-wise deep copy (`clone s = s` as a
value), advancing the clone is a pure function of the original state,
advancing touches no `points` cell other than the entered one, and a
sibling branch advanced by a different action still sees the original
value of the cell the first branch consumed — branches share no mutable
state. -/
theorem clone_deep_and_independent :
    ∀ (s : MazeState) (a b : Nat),
      s.clone = s ∧
      (s.clone).advance a = s.advance a ∧
      (∀ y x, ¬(y = (targetIdx s a).1 ∧ x = (targetIdx s a).2) →
        ((s.clone).advance a).points y x = s.points y x) ∧
      (targetIdx s a ≠ targetIdx s b →
        ((s.clone).advance b).points (targetIdx s a).1 (targetIdx s a).2 =
          s.points (targetIdx s a).1 (targetIdx s a).2) := by
  intro s a b
  refine ⟨clone_eq s, rfl, ?_, ?_⟩
  · intro y x hne
    rw [clone_eq]
    exact advance_points_frame s a y x hne
  · intro hne
    rw [clone_eq]
    apply advance_points_frame
    rintro ⟨h1, h2⟩
    exact hne (Prod.ext_iff.2 ⟨h1, h2⟩)

theorem clone_deep_and_independent_witness :
    root0.clone = root0 ∧
    ((root0.clone).advance 2).points (targetIdx root0 0).1
        (targetIdx root0 0).2 =
      root0.points (targetIdx root0 0).1 (targetIdx root0 0).2 :=
  ⟨(clone_deep_and_independent root0 0 2).1,
   (clone_deep_and_independent root0 0 2).2.2.2 (by decide)⟩

/-- C10: with the wall clock replaced by an injected budget oracle, both
engines are deterministic: two runs whose oracles agree up to the first
expired consultation produce identical actions, whatever the root, the
widths and the fuel. -/
theorem engines_deterministic :
    ∀ (root : MazeState) (w d n fuel : Nat) (o1 o2 : Nat → Bool),
      (∀ j, j ≤ n → o1 j = o2 j) → o1 n = true →
      beam_search_action_with_time_threshold root w o1 fuel =
        beam_search_action_with_time_threshold root w o2 fuel ∧
      chokudai_search_action_wirh_time_threshold root w d o1 fuel =
        chokudai_search_action_wirh_time_threshold root w d o2 fuel := by
  intro root w d n fuel o1 o2 hag hn
  exact ⟨beamLoop_congr hag hn fuel [root.clone] (root.clone) 0 0
      (Nat.zero_le n),
    chokLoop_congr hag hn fuel (chokInit root) 0 (Nat.zero_le n)⟩

theorem engines_deterministic_witness :
    beam_search_action_with_time_threshold root0 1 (fun _ => true) 2 =
      beam_search_action_with_time_threshold root0 1
        (fun j => decide (j ≤ 5)) 2 ∧
    chokudai_search_action_wirh_time_threshold root0 1 1 (fun _ => true) 2 =
      chokudai_search_action_wirh_time_threshold root0 1 1
        (fun j => decide (j ≤ 5)) 2 :=
  engines_deterministic root0 1 1 0 2 (fun _ => true)
    (fun j => decide (j ≤ 5))
    (fun j hj => by
      have hj0 : j = 0 := Nat.le_zero.1 hj
      subst hj0
      rfl) rfl

end ThunderRust
